import Mathlib

/-!
Verification of the `KeyvSqlite` expiring key-value store (`src/index.ts`)
against its natural-language specification.

The store keeps one SQL table of rows `(cacheKey, cacheData, createdAt,
expiredAt)` and implements `get`/`getMany`/`set`/`delete`/`deleteMany`/
`clear`/`iterator` through a fixed family of prepared statements.  We embed
the table as a list of rows (list order models SQLite rowid order), each
prepared statement as a pure function on that list, and each public
operation exactly as the TypeScript source composes the statements.

JavaScript numbers that can be `NaN`/`Infinity` (the `ttl` argument of
`set`) are embedded as an extended rational type `JSNum`; float rounding is
idealized away (all values of interest are small integers).  Driver-level
parameter binding is embedded as a function from JS values (`Option`, with
`none` for `undefined`) into `Except`, reflecting that strict drivers such
as `bun:sqlite` reject an `undefined` binding.
-/

namespace KeyvSqlite

/-- A JavaScript number: a finite value (idealized as a rational), `NaN`,
`Infinity`, or `-Infinity`. -/
inductive JSNum where
  | num : ℚ → JSNum
  | nan : JSNum
  | inf : JSNum
  | ninf : JSNum
deriving DecidableEq, Repr

/-- JavaScript `+` on numbers (`NaN` propagates, opposite infinities give
`NaN`). -/
def JSNum.add : JSNum → JSNum → JSNum
  | .nan, _ => .nan
  | _, .nan => .nan
  | .inf, .ninf => .nan
  | .ninf, .inf => .nan
  | .inf, _ => .inf
  | _, .inf => .inf
  | .ninf, _ => .ninf
  | _, .ninf => .ninf
  | .num a, .num b => .num (a + b)

/-- JavaScript `*` on numbers (`NaN` propagates, `Infinity * 0 = NaN`,
signs of infinities multiply). -/
def JSNum.mul : JSNum → JSNum → JSNum
  | .nan, _ => .nan
  | _, .nan => .nan
  | .inf, .inf => .inf
  | .inf, .ninf => .ninf
  | .ninf, .inf => .ninf
  | .ninf, .ninf => .inf
  | .inf, .num b => if 0 < b then .inf else if b < 0 then .ninf else .nan
  | .num a, .inf => if 0 < a then .inf else if a < 0 then .ninf else .nan
  | .ninf, .num b => if 0 < b then .ninf else if b < 0 then .inf else .nan
  | .num a, .ninf => if 0 < a then .ninf else if a < 0 then .inf else .nan
  | .num a, .num b => .num (a * b)

/-- The `expiredAt` computation of `updateCaches` in `src/index.ts`:

    const expiredAt =
      ttl != undefined && ttl != 0 ? createdAt + ttl * 1000 : -1;

`ttl : Option JSNum`, with `none` for `undefined` (and for `null`, which
the loose inequality `ttl != undefined` also sends to the `-1` branch).
`ttl != 0` is the loose JS comparison: it is `true` for `NaN`, `Infinity`,
`-Infinity` and every finite number other than `0`. -/
def computeExpiredAt (createdAt : ℚ) (ttl : Option JSNum) : JSNum :=
  match ttl with
  | none => .num (-1)
  | some t => if t ≠ JSNum.num 0 then (JSNum.num createdAt).add (t.mul (.num 1000)) else .num (-1)

/-- Modelled from the spec: `expiredAt = createdAt + ttlSeconds*1000` when
`ttlSeconds` is a finite number strictly greater than 0; otherwise `-1`
(no expiration), with missing, zero, negative, `NaN` and `Infinity` all
degrading to `-1`. -/
def specExpiredAt (createdAt : ℚ) (ttl : Option JSNum) : JSNum :=
  match ttl with
  | some (.num q) => if 0 < q then .num (createdAt + q * 1000) else .num (-1)
  | _ => .num (-1)

/-- A value a SQLite driver can bind: string, number, boolean, blob, or
null. -/
inductive SQLiteValue where
  | text : String → SQLiteValue
  | intv : Int → SQLiteValue
  | boolv : Bool → SQLiteValue
  | blob : List Nat → SQLiteValue
  | nullv : SQLiteValue
deriving DecidableEq, Repr

/-- Parameter binding of a strict driver (`bun:sqlite`): it accepts every
`SQLiteValue` but rejects an `undefined` argument (`none`) with a
`TypeError`.  This is the `BindingRejection` error kind of the spec. -/
def bindParam : Option SQLiteValue → Except String SQLiteValue
  | none => .error "Binding expected string, TypedArray, boolean, number, bigint or null"
  | some v => .ok v

/-- Bind a whole parameter list; the first rejected parameter aborts the
statement with its error. -/
def bindAll : List (Option SQLiteValue) → Except String (List SQLiteValue)
  | [] => .ok []
  | p :: ps => do
    let v ← bindParam p
    let vs ← bindAll ps
    .ok (v :: vs)

/-- The argument list `updateCaches` passes to
`updateStatement.run(cache[0], cache[1], createdAt, expiredAt)` in
`src/index.ts`: the value `cache[1]` is passed through raw, with no
`undefined → null` normalization. -/
def updateCachesBindArgs (key : String) (value : Option SQLiteValue)
    (createdAt expiredAt : Int) : List (Option SQLiteValue) :=
  [some (.text key), value, some (.intv createdAt), some (.intv expiredAt)]

/-- Modelled from the spec: the store normalizes an absent/undefined value
to an explicit null before binding it into the upsert statement. -/
def specNormalizeValue (value : Option SQLiteValue) : Option SQLiteValue :=
  some (value.getD .nullv)

/-- Outcome of binding the upsert statement for one `set(key, value)` call
as the code performs it. -/
def setBindOutcome (key : String) (value : Option SQLiteValue)
    (createdAt expiredAt : Int) : Except String (List SQLiteValue) :=
  bindAll (updateCachesBindArgs key value createdAt expiredAt)

/-- Claim C1 (code bug): the spec demands `expiredAt = -1` for every
degenerate `ttl` (missing, zero, negative, `NaN`, `Infinity`), but the
code's guard `ttl != undefined && ttl != 0` lets negative, `NaN` and
`Infinity` TTLs through to the arithmetic branch: `set(k, v, -5)` at
`createdAt = 1000` stores `expiredAt = -4000` (an already-past timestamp,
not `-1`), a `NaN` TTL stores `NaN`, and an `Infinity` TTL stores
`Infinity`, each diverging from the spec's `-1`. -/
theorem computeExpiredAt_degenerate_ttl_divergence :
    computeExpiredAt 1000 (some (.num (-5))) = .num (-4000)
    ∧ specExpiredAt 1000 (some (.num (-5))) = .num (-1)
    ∧ computeExpiredAt 1000 (some .nan) = .nan
    ∧ computeExpiredAt 1000 (some .inf) = .inf
    ∧ specExpiredAt 1000 (some .nan) = .num (-1)
    ∧ specExpiredAt 1000 (some .inf) = .num (-1)
    ∧ computeExpiredAt 1000 none = .num (-1)
    ∧ computeExpiredAt 1000 (some (.num 0)) = .num (-1)
    ∧ computeExpiredAt 1000 (some (.num 5)) = .num 6000 := by
  refine ⟨?_, ?_, ?_, ?_, ?_, ?_, ?_, ?_, ?_⟩ <;>
    norm_num [computeExpiredAt, specExpiredAt, JSNum.add, JSNum.mul] <;>
    intro h <;> exact absurd h (by decide)

/-- Claim C2 (code bug): the spec demands that an absent/undefined value be
normalized to an explicit null before binding, making the
`BindingRejection` branch unreachable; but `updateCaches` passes the value
raw, so `set(key, undefined)` on a strict driver hits the binding error,
while the spec-mandated normalization would succeed with a null marker. -/
theorem setBindOutcome_undefined_value_divergence :
    setBindOutcome "k" none 1000 (-1)
      = .error "Binding expected string, TypedArray, boolean, number, bigint or null"
    ∧ bindAll (updateCachesBindArgs "k" (specNormalizeValue none) 1000 (-1))
      = .ok [.text "k", .nullv, .intv 1000, .intv (-1)]
    ∧ setBindOutcome "k" (some (.text "v")) 1000 (-1)
      = .ok [.text "k", .text "v", .intv 1000, .intv (-1)] := by
  refine ⟨rfl, rfl, rfl⟩

/-- One row of the `caches` table (`CacheObject` in `src/index.ts`). -/
structure CacheObject where
  cacheKey : String
  cacheData : String
  createdAt : Int
  expiredAt : Int
deriving DecidableEq, Repr

/-- The `caches` table; list order models SQLite rowid order. -/
abbrev Table := List CacheObject

/-- `SELECT * FROM caches WHERE cacheKey = ?` followed by `.get(key)`:
the first matching row, if any. -/
def selectSingleStmt (tbl : Table) (k : String) : Option CacheObject :=
  tbl.find? (fun r => r.cacheKey == k)

/-- `SELECT * FROM caches WHERE cacheKey IN (SELECT value FROM
json_each(?))` followed by `.all(JSON.stringify(args))`. -/
def selectManyStmt (tbl : Table) (keys : List String) : List CacheObject :=
  tbl.filter (fun r => keys.contains r.cacheKey)

/-- `INSERT OR REPLACE INTO caches(cacheKey, cacheData, createdAt,
expiredAt) VALUES (?, ?, ?, ?)`: a conflicting row (same primary key) is
deleted and the new row is inserted with a fresh rowid, i.e. at the end. -/
def runUpdateStmt (tbl : Table) (k data : String) (createdAt expiredAt : Int) : Table :=
  tbl.filter (fun r => r.cacheKey != k) ++ [⟨k, data, createdAt, expiredAt⟩]

/-- The lazy-expiration test of `fetchCaches`:
`data.expiredAt !== -1 && data.expiredAt < ts`. -/
def isExpired (r : CacheObject) (ts : Int) : Bool :=
  r.expiredAt != -1 && r.expiredAt < ts

/-- `fetchCaches` of `src/index.ts` (the returned row list; the
`purgeExpired` flag and the scheduled purge are modelled separately in the
error-propagation section): for 3+ keys one set-membership select whose
rows are filtered for expiry, otherwise one single-key select per key. -/
def fetchCaches (tbl : Table) (ts : Int) (args : List String) : List CacheObject :=
  if 3 ≤ args.length then
    (selectManyStmt tbl args).filterMap
      (fun d => if isExpired d ts then none else some d)
  else
    args.filterMap (fun k =>
      match selectSingleStmt tbl k with
      | none => none
      | some d => if isExpired d ts then none else some d)

/-- `get(key)`: the first fetched row's `cacheData`, or not-found. -/
def getOp (tbl : Table) (ts : Int) (k : String) : Option String :=
  match fetchCaches tbl ts [k] with
  | [] => none
  | r :: _ => some r.cacheData

/-- `getMany(keys)`: the code fetches `rows = fetchCaches(...keys)` once
and maps each input key to `rows.find(row => row.cacheKey === key)`. -/
def getManyOp (tbl : Table) (ts : Int) (keys : List String) : List (Option String) :=
  keys.map (fun k =>
    ((fetchCaches tbl ts keys).find? (fun r => r.cacheKey == k)).map
      (fun r => r.cacheData))

/-- `updateCaches` applied to a batch of `(key, data)` pairs: one upsert
per pair, all sharing the `createdAt`/`expiredAt` computed once per call
(the TTL conversion itself is `computeExpiredAt`). -/
def updateCachesOp (tbl : Table) (entries : List (String × String))
    (createdAt expiredAt : Int) : Table :=
  entries.foldl (fun t e => runUpdateStmt t e.1 e.2 createdAt expiredAt) tbl

/-- `set(key, value)` with no TTL: `updateCaches` stores `expiredAt = -1`. -/
def setNoTTLOp (tbl : Table) (ts : Int) (k v : String) : Table :=
  updateCachesOp tbl [(k, v)] ts (-1)

/-- Reference lookup: the row the single-key select finds, with the lazy
expiration filter applied. -/
def lookupLiveRow (tbl : Table) (ts : Int) (k : String) : Option CacheObject :=
  match selectSingleStmt tbl k with
  | none => none
  | some d => if isExpired d ts then none else some d

/-- Reference lookup for values: `cacheData` of the live row, if any. -/
def lookupLive (tbl : Table) (ts : Int) (k : String) : Option String :=
  (lookupLiveRow tbl ts k).map (fun r => r.cacheData)

/-- The primary-key invariant: all `cacheKey`s in the table are distinct. -/
def tableKeysNodup (tbl : Table) : Prop :=
  (tbl.map (fun r => r.cacheKey)).Nodup

lemma isExpired_false_iff (r : CacheObject) (ts : Int) :
    isExpired r ts = false ↔ r.expiredAt = -1 ∨ ts ≤ r.expiredAt := by
  simp [isExpired]
  omega

lemma isExpired_true_iff (r : CacheObject) (ts : Int) :
    isExpired r ts = true ↔ r.expiredAt ≠ -1 ∧ r.expiredAt < ts := by
  simp [isExpired]

lemma selectSingleStmt_eq_some {tbl : Table} {k : String} {r : CacheObject}
    (h : selectSingleStmt tbl k = some r) : r ∈ tbl ∧ r.cacheKey = k := by
  unfold selectSingleStmt at h
  refine ⟨List.mem_of_find?_eq_some h, ?_⟩
  have := List.find?_some h
  simpa using this

lemma lookupLiveRow_eq_some {tbl : Table} {ts : Int} {k : String} {r : CacheObject}
    (h : lookupLiveRow tbl ts k = some r) :
    r ∈ tbl ∧ r.cacheKey = k ∧ isExpired r ts = false := by
  unfold lookupLiveRow at h
  cases hsel : selectSingleStmt tbl k with
  | none => rw [hsel] at h; cases h
  | some d =>
    rw [hsel] at h
    dsimp only at h
    by_cases he : isExpired d ts
    · rw [if_pos he] at h; cases h
    · rw [if_neg he] at h
      cases h
      obtain ⟨hm, hk⟩ := selectSingleStmt_eq_some hsel
      exact ⟨hm, hk, by simpa using he⟩

lemma fetchCaches_small (tbl : Table) (ts : Int) (args : List String)
    (h : args.length < 3) :
    fetchCaches tbl ts args = args.filterMap (lookupLiveRow tbl ts) := by
  unfold fetchCaches
  rw [if_neg (by omega)]
  rfl

lemma fetchCaches_large (tbl : Table) (ts : Int) (args : List String)
    (h : 3 ≤ args.length) :
    fetchCaches tbl ts args =
      (selectManyStmt tbl args).filterMap
        (fun d => if isExpired d ts then none else some d) := by
  unfold fetchCaches
  rw [if_pos h]

lemma mem_fetchCaches {tbl : Table} {ts : Int} {keys : List String} {r : CacheObject}
    (h : r ∈ fetchCaches tbl ts keys) : r ∈ tbl ∧ isExpired r ts = false := by
  by_cases hlen : 3 ≤ keys.length
  · rw [fetchCaches_large tbl ts keys hlen] at h
    obtain ⟨d, hd, hdr⟩ := List.mem_filterMap.mp h
    have hdm : d ∈ tbl := List.mem_of_mem_filter hd
    by_cases he : isExpired d ts
    · rw [if_pos he] at hdr; cases hdr
    · rw [if_neg he] at hdr
      cases hdr
      exact ⟨hdm, by simpa using he⟩
  · rw [fetchCaches_small tbl ts keys (by omega)] at h
    obtain ⟨k, _, hkr⟩ := List.mem_filterMap.mp h
    obtain ⟨hm, _, he⟩ := lookupLiveRow_eq_some hkr
    exact ⟨hm, he⟩

lemma getOp_eq (tbl : Table) (ts : Int) (k : String) :
    getOp tbl ts k = lookupLive tbl ts k := by
  unfold getOp lookupLive
  rw [fetchCaches_small tbl ts [k] (by simp)]
  cases h : lookupLiveRow tbl ts k <;> simp [List.filterMap, h]

lemma filterMap_lookupLiveRow_find (tbl : Table) (ts : Int) (keys : List String)
    (k : String) (hk : k ∈ keys) :
    (keys.filterMap (lookupLiveRow tbl ts)).find? (fun r => r.cacheKey == k)
      = lookupLiveRow tbl ts k := by
  induction keys with
  | nil => cases hk
  | cons q rest ih =>
    by_cases hq : q = k
    · subst hq
      cases h : lookupLiveRow tbl ts q with
      | some r =>
        rw [List.filterMap_cons_some h]
        rw [List.find?_cons_of_pos]
        simp [(lookupLiveRow_eq_some h).2.1]
      | none =>
        rw [List.filterMap_cons_none h]
        rw [List.find?_eq_none]
        intro x hx
        obtain ⟨kx, _, hfx⟩ := List.mem_filterMap.mp hx
        have hxk := (lookupLiveRow_eq_some hfx).2.1
        simp only [beq_iff_eq]
        intro hcontra
        have hkq : kx = q := hxk.symm.trans hcontra
        rw [hkq] at hfx
        rw [h] at hfx
        cases hfx
    · have hk' : k ∈ rest := by
        rcases List.mem_cons.mp hk with h | h
        · exact absurd h.symm hq
        · exact h
      cases h : lookupLiveRow tbl ts q with
      | none =>
        rw [List.filterMap_cons_none h]
        exact ih hk'
      | some r =>
        rw [List.filterMap_cons_some h]
        rw [List.find?_cons_of_neg]
        · exact ih hk'
        · simp [(lookupLiveRow_eq_some h).2.1, hq]

lemma selectMany_live_find (ts : Int) (keys : List String) (k : String)
    (hk : k ∈ keys) (tbl : Table) (hnd : tableKeysNodup tbl) :
    ((selectManyStmt tbl keys).filterMap
        (fun d => if isExpired d ts then none else some d)).find?
        (fun r => r.cacheKey == k)
      = lookupLiveRow tbl ts k := by
  induction tbl with
  | nil => simp [selectManyStmt, lookupLiveRow, selectSingleStmt]
  | cons r rest ih =>
    have hnd0 : (r.cacheKey :: rest.map (fun x => x.cacheKey)).Nodup := by
      simpa [tableKeysNodup] using hnd
    have hnd' : tableKeysNodup rest := by
      simpa [tableKeysNodup] using (List.nodup_cons.mp hnd0).2
    have hrk : r.cacheKey ∉ rest.map (fun x => x.cacheKey) :=
      (List.nodup_cons.mp hnd0).1
    have ihr := ih hnd'
    by_cases hr : r.cacheKey = k
    · have hsel : selectSingleStmt (r :: rest) k = some r := by
        unfold selectSingleStmt
        rw [List.find?_cons_of_pos]
        simp [hr]
      have hmem : r.cacheKey ∈ keys := by rw [hr]; exact hk
      unfold selectManyStmt
      have hfil : List.filter (fun x => keys.contains x.cacheKey) (r :: rest)
          = r :: List.filter (fun x => keys.contains x.cacheKey) rest := by
        simp [List.filter_cons, hmem]
      rw [hfil]
      unfold lookupLiveRow
      rw [hsel]
      dsimp only
      by_cases hexp : isExpired r ts
      · rw [if_pos hexp]
        rw [List.filterMap_cons_none (by simp [hexp])]
        rw [List.find?_eq_none]
        intro x hx
        obtain ⟨d, hd, hdx⟩ := List.mem_filterMap.mp hx
        have hdm : d ∈ rest := List.mem_of_mem_filter hd
        have hdx' : d = x := by
          by_cases he : isExpired d ts
          · rw [if_pos he] at hdx; cases hdx
          · rw [if_neg he] at hdx; cases hdx; rfl
        simp only [beq_iff_eq]
        intro hcontra
        apply hrk
        rw [hr, ← hcontra, ← hdx']
        exact List.mem_map.mpr ⟨d, hdm, rfl⟩
      · rw [if_neg hexp]
        have hsome : (fun d => if isExpired d ts = true then none else some d) r
            = some r := by simp [hexp]
        simp only [List.filterMap_cons, hsome]
        rw [List.find?_cons_of_pos]
        simp [hr]
    · have hsel : selectSingleStmt (r :: rest) k = selectSingleStmt rest k := by
        unfold selectSingleStmt
        rw [List.find?_cons_of_neg]
        simp [hr]
      have hlook : lookupLiveRow (r :: rest) ts k = lookupLiveRow rest ts k := by
        unfold lookupLiveRow
        rw [hsel]
      rw [hlook]
      unfold selectManyStmt
      by_cases hcont : r.cacheKey ∈ keys
      case neg =>
        have hfil : List.filter (fun x => keys.contains x.cacheKey) (r :: rest)
            = List.filter (fun x => keys.contains x.cacheKey) rest := by
          simp [List.filter_cons, hcont]
        rw [hfil]
        exact ihr
      case pos =>
        have hfil : List.filter (fun x => keys.contains x.cacheKey) (r :: rest)
            = r :: List.filter (fun x => keys.contains x.cacheKey) rest := by
          simp [List.filter_cons, hcont]
        rw [hfil]
        by_cases hexp : isExpired r ts
        · rw [List.filterMap_cons_none (by simp [hexp])]
          exact ihr
        · have hsome : (fun d => if isExpired d ts = true then none else some d) r
              = some r := by simp [hexp]
          simp only [List.filterMap_cons, hsome]
          rw [List.find?_cons_of_neg]
          · exact ihr
          · simp [hr]

/-- Claim C3: `get(key)` is not-found exactly when no row exists for the
key or the row has `expiredAt ≠ -1` strictly below the current time; in
every other case it returns the row's `cacheData` verbatim.  Moreover no
`get`/`getMany` result ever exposes the value of an expired row: any value
returned comes from a row that is in the table and not expired at the
operation's timestamp. -/
theorem get_not_found_iff (tbl : Table) (ts : Int) (k : String) :
    (getOp tbl ts k = none ↔
      selectSingleStmt tbl k = none ∨
        ∃ r, selectSingleStmt tbl k = some r ∧ r.expiredAt ≠ -1 ∧ r.expiredAt < ts)
    ∧ (∀ r, selectSingleStmt tbl k = some r → r.expiredAt = -1 ∨ ts ≤ r.expiredAt →
        getOp tbl ts k = some r.cacheData)
    ∧ (∀ keys v, some v ∈ getManyOp tbl ts keys →
        ∃ r, r ∈ tbl ∧ r.cacheData = v ∧ (r.expiredAt = -1 ∨ ts ≤ r.expiredAt)) := by
  refine ⟨?_, ?_, ?_⟩
  · rw [getOp_eq]
    unfold lookupLive lookupLiveRow
    cases h : selectSingleStmt tbl k with
    | none => simp
    | some r =>
      by_cases hexp : isExpired r ts
      · simp only [if_pos hexp, Option.map_none]
        simp [(isExpired_true_iff r ts).mp (by simpa using hexp)]
      · simp only [if_neg hexp, Option.map_some]
        have := (isExpired_false_iff r ts).mp (by simpa using hexp)
        simp
        omega
  · intro r hr hlive
    rw [getOp_eq]
    unfold lookupLive lookupLiveRow
    rw [hr]
    have heq : isExpired r ts = false := (isExpired_false_iff r ts).mpr hlive
    simp [heq]
  · intro keys v hv
    unfold getManyOp at hv
    obtain ⟨k', _, hslot⟩ := List.mem_map.mp hv
    cases hfind : (fetchCaches tbl ts keys).find? (fun r => r.cacheKey == k') with
    | none => rw [hfind] at hslot; cases hslot
    | some r =>
      rw [hfind] at hslot
      cases hslot
      have hr := List.mem_of_find?_eq_some hfind
      obtain ⟨hmem, hexp⟩ := mem_fetchCaches hr
      exact ⟨r, hmem, rfl, (isExpired_false_iff r ts).mp hexp⟩

/-- Claim C3 witness: on a one-row table with a never-expiring row, `get`
returns the stored value. -/
theorem get_not_found_iff_witness :
    getOp [⟨"k", "v", 0, -1⟩] 5 "k" = some "v" :=
  (get_not_found_iff [⟨"k", "v", 0, -1⟩] 5 "k").2.1 ⟨"k", "v", 0, -1⟩ rfl (by decide)

/-- Claim C4: for all keys `k` and string values `v`, `set(k, v)` with no
TTL followed by `get(k)` at any later (indeed any) timestamp returns `v`
unchanged. -/
theorem set_then_get_roundtrip (tbl : Table) (ts ts2 : Int) (k v : String) :
    getOp (setNoTTLOp tbl ts k v) ts2 k = some v := by
  rw [getOp_eq]
  unfold lookupLive lookupLiveRow selectSingleStmt setNoTTLOp updateCachesOp
  simp only [List.foldl_cons, List.foldl_nil]
  unfold runUpdateStmt
  rw [List.find?_append]
  have h1 : (tbl.filter (fun r => r.cacheKey != k)).find? (fun r => r.cacheKey == k)
      = none := by
    rw [List.find?_eq_none]
    intro x hx
    have := List.of_mem_filter hx
    simpa using this
  rw [h1]
  simp [isExpired]

/-- Claim C5: `getMany(keys)` returns one slot per input key, in input
order, each slot being the live value under that key (not-found for an
absent or expired row), identically on the per-key path (fewer than 3
keys) and the set-membership path (3 or more keys). -/
theorem getMany_order_and_content (tbl : Table) (ts : Int) (keys : List String)
    (h : tableKeysNodup tbl) :
    getManyOp tbl ts keys = keys.map (lookupLive tbl ts) := by
  unfold getManyOp
  apply List.map_congr_left
  intro k hk
  by_cases hlen : 3 ≤ keys.length
  · rw [fetchCaches_large tbl ts keys hlen]
    rw [selectMany_live_find ts keys k hk tbl h]
    rfl
  · rw [fetchCaches_small tbl ts keys (by omega)]
    rw [filterMap_lookupLiveRow_find tbl ts keys k hk]
    rfl

/-- Claim C5 witness: three stored keys queried in a different order come
back in query order (this exercises the set-membership path). -/
theorem getMany_order_and_content_witness :
    getManyOp [⟨"a", "1", 0, -1⟩, ⟨"b", "2", 0, -1⟩, ⟨"c", "3", 0, -1⟩] 10
        ["c", "a", "b"]
      = [some "3", some "1", some "2"] := by
  rw [getMany_order_and_content
    [⟨"a", "1", 0, -1⟩, ⟨"b", "2", 0, -1⟩, ⟨"c", "3", 0, -1⟩] 10 ["c", "a", "b"]
    (by unfold tableKeysNodup; decide)]
  rfl

/-- `DELETE FROM caches WHERE cacheKey = ?`: the resulting table and the
statement's `changes` count. -/
def deleteSingleStmt (tbl : Table) (k : String) : Table × Nat :=
  (tbl.filter (fun r => r.cacheKey != k),
   (tbl.filter (fun r => r.cacheKey == k)).length)

/-- `DELETE FROM caches WHERE cacheKey IN (SELECT value FROM
json_each(?))`: the resulting table and the `changes` count. -/
def deleteInStmt (tbl : Table) (keys : List String) : Table × Nat :=
  (tbl.filter (fun r => !keys.contains r.cacheKey),
   (tbl.filter (fun r => keys.contains r.cacheKey)).length)

/-- `deleteCaches` of `src/index.ts`: 3+ keys go through one
set-membership delete; fewer issue one single-key delete per key, summing
the `changes` counts. -/
def deleteCachesOp (tbl : Table) (args : List String) : Table × Nat :=
  if 3 ≤ args.length then
    deleteInStmt tbl args
  else
    args.foldl (fun acc k =>
      let s := deleteSingleStmt acc.1 k
      (s.1, acc.2 + s.2)) (tbl, 0)

/-- `deleteMany(keys)`: `deleteCaches(...keys) == keys.length`. -/
def deleteManyOp (tbl : Table) (keys : List String) : Table × Bool :=
  ((deleteCachesOp tbl keys).1, (deleteCachesOp tbl keys).2 == keys.length)

lemma filter_cons_key (tbl : Table) (k : String) (ks : List String) :
    (tbl.filter (fun r => r.cacheKey != k)).filter (fun r => !ks.contains r.cacheKey)
      = tbl.filter (fun r => !(k :: ks).contains r.cacheKey) := by
  rw [List.filter_filter]
  apply List.filter_congr
  intro x _
  rw [List.contains_cons, Bool.not_or, Bool.and_comm]
  rfl

lemma length_filter_or (l : Table) (p q : CacheObject → Bool) :
    (l.filter (fun x => p x || q x)).length
      = (l.filter p).length + (l.filter (fun x => !p x && q x)).length := by
  induction l with
  | nil => rfl
  | cons a t ih =>
    cases hp : p a <;> cases hq : q a <;>
      simp [List.filter_cons, hp, hq, ih] <;> omega

lemma length_filter_cons_key (tbl : Table) (k : String) (ks : List String) :
    (tbl.filter (fun r => (k :: ks).contains r.cacheKey)).length
      = (tbl.filter (fun r => r.cacheKey == k)).length
        + ((tbl.filter (fun r => r.cacheKey != k)).filter
            (fun r => ks.contains r.cacheKey)).length := by
  rw [List.filter_filter]
  have hc : tbl.filter (fun r => (k :: ks).contains r.cacheKey)
      = tbl.filter (fun x => x.cacheKey == k || ks.contains x.cacheKey) :=
    List.filter_congr (fun x _ => by rw [List.contains_cons])
  rw [hc,
    length_filter_or tbl (fun r => r.cacheKey == k) (fun r => ks.contains r.cacheKey)]
  congr 1
  refine congrArg List.length ?_
  apply List.filter_congr
  intro x _
  rw [Bool.and_comm]
  rfl

lemma deleteFold_spec (keys : List String) :
    ∀ (tbl : Table) (c : Nat),
      keys.foldl (fun acc k =>
          let s := deleteSingleStmt acc.1 k
          (s.1, acc.2 + s.2)) (tbl, c)
        = (tbl.filter (fun r => !keys.contains r.cacheKey),
           c + (tbl.filter (fun r => keys.contains r.cacheKey)).length) := by
  induction keys with
  | nil => intro tbl c; simp
  | cons k ks ih =>
    intro tbl c
    rw [List.foldl_cons]
    dsimp only
    rw [ih]
    unfold deleteSingleStmt
    dsimp only
    rw [Prod.mk.injEq]
    refine ⟨filter_cons_key tbl k ks, ?_⟩
    rw [length_filter_cons_key tbl k ks]
    omega

lemma deleteCachesOp_spec (tbl : Table) (args : List String) :
    deleteCachesOp tbl args
      = (tbl.filter (fun r => !args.contains r.cacheKey),
         (tbl.filter (fun r => args.contains r.cacheKey)).length) := by
  unfold deleteCachesOp
  by_cases h : 3 ≤ args.length
  · rw [if_pos h]; rfl
  · rw [if_neg h]
    have hfold := deleteFold_spec args tbl 0
    simpa using hfold

lemma length_filter_contains_le (tbl : Table) (keys : List String)
    (h : tableKeysNodup tbl) :
    (tbl.filter (fun r => keys.contains r.cacheKey)).length ≤ keys.toFinset.card := by
  have h' : (tbl.map (fun r => r.cacheKey)).Nodup := h
  have hsub : List.Sublist (tbl.filter (fun r => keys.contains r.cacheKey)) tbl :=
    List.filter_sublist tbl
  have hnd : ((tbl.filter (fun r => keys.contains r.cacheKey)).map
      (fun r => r.cacheKey)).Nodup :=
    List.Nodup.sublist (hsub.map _) h'
  have hsubset : ((tbl.filter (fun r => keys.contains r.cacheKey)).map
      (fun r => r.cacheKey)).toFinset ⊆ keys.toFinset := by
    intro x hx
    rw [List.mem_toFinset] at hx ⊢
    obtain ⟨r, hrF, rfl⟩ := List.mem_map.mp hx
    have hp := List.of_mem_filter hrF
    simpa using hp
  calc (tbl.filter (fun r => keys.contains r.cacheKey)).length
      = ((tbl.filter (fun r => keys.contains r.cacheKey)).map
          (fun r => r.cacheKey)).length := by simp
    _ = ((tbl.filter (fun r => keys.contains r.cacheKey)).map
          (fun r => r.cacheKey)).toFinset.card :=
        (List.toFinset_card_of_nodup hnd).symm
    _ ≤ keys.toFinset.card := Finset.card_le_card hsubset

lemma length_filter_contains_lt_of_missing (tbl : Table) (keys : List String)
    (k : String) (h : tableKeysNodup tbl) (hk : k ∈ keys)
    (hno : ∀ r ∈ tbl, r.cacheKey ≠ k) :
    (tbl.filter (fun r => keys.contains r.cacheKey)).length < keys.length := by
  have h' : (tbl.map (fun r => r.cacheKey)).Nodup := h
  have hsub : List.Sublist (tbl.filter (fun r => keys.contains r.cacheKey)) tbl :=
    List.filter_sublist tbl
  have hnd : ((tbl.filter (fun r => keys.contains r.cacheKey)).map
      (fun r => r.cacheKey)).Nodup :=
    List.Nodup.sublist (hsub.map _) h'
  have hsubset : ((tbl.filter (fun r => keys.contains r.cacheKey)).map
      (fun r => r.cacheKey)).toFinset ⊆ keys.toFinset.erase k := by
    intro x hx
    rw [List.mem_toFinset] at hx
    obtain ⟨r, hrF, rfl⟩ := List.mem_map.mp hx
    refine Finset.mem_erase.mpr ⟨hno r (List.mem_of_mem_filter hrF), ?_⟩
    rw [List.mem_toFinset]
    simpa using List.of_mem_filter hrF
  have h1 : (tbl.filter (fun r => keys.contains r.cacheKey)).length
      ≤ (keys.toFinset.erase k).card := by
    calc (tbl.filter (fun r => keys.contains r.cacheKey)).length
        = ((tbl.filter (fun r => keys.contains r.cacheKey)).map
            (fun r => r.cacheKey)).length := by simp
      _ = ((tbl.filter (fun r => keys.contains r.cacheKey)).map
            (fun r => r.cacheKey)).toFinset.card :=
          (List.toFinset_card_of_nodup hnd).symm
      _ ≤ (keys.toFinset.erase k).card := Finset.card_le_card hsubset
  have h2 : (keys.toFinset.erase k).card = keys.toFinset.card - 1 :=
    Finset.card_erase_of_mem (List.mem_toFinset.mpr hk)
  have h3 : keys.toFinset.card ≤ keys.length := List.toFinset_card_le keys
  have h4 : 0 < keys.toFinset.card :=
    Finset.card_pos.mpr ⟨k, List.mem_toFinset.mpr hk⟩
  omega

lemma toFinset_card_lt_of_dup (keys : List String) (h : ¬keys.Nodup) :
    keys.toFinset.card < keys.length := by
  rw [List.card_toFinset]
  have hsub := keys.dedup_sublist
  have hle := hsub.length_le
  rcases Nat.lt_or_ge keys.dedup.length keys.length with hlt | hge
  · exact hlt
  · exact absurd ((hsub.eq_of_length (Nat.le_antisymm hle hge)) ▸ keys.nodup_dedup) h

lemma length_filter_key_eq_one (tbl : Table) (k : String) (h : tableKeysNodup tbl)
    (hex : ∃ r ∈ tbl, r.cacheKey = k) :
    (tbl.filter (fun x => x.cacheKey == k)).length = 1 := by
  induction tbl with
  | nil => obtain ⟨r, hr, _⟩ := hex; cases hr
  | cons a t ih =>
    have h0 : (a.cacheKey :: t.map (fun x => x.cacheKey)).Nodup := by
      simpa [tableKeysNodup] using h
    have hnd2 : tableKeysNodup t := by
      simpa [tableKeysNodup] using (List.nodup_cons.mp h0).2
    have hnotin := (List.nodup_cons.mp h0).1
    by_cases hak : a.cacheKey = k
    · have hnone : t.filter (fun x => x.cacheKey == k) = [] := by
        rw [List.filter_eq_nil_iff]
        intro x hx
        simp only [beq_iff_eq]
        intro hc
        exact hnotin (List.mem_map.mpr ⟨x, hx, by rw [hc, hak]⟩)
      simp [List.filter_cons, hak, hnone]
    · have hex2 : ∃ r ∈ t, r.cacheKey = k := by
        obtain ⟨r, hr, hrk⟩ := hex
        rcases List.mem_cons.mp hr with rfl | hm
        · exact absurd hrk hak
        · exact ⟨r, hm, hrk⟩
      simp [List.filter_cons, hak, ih hnd2 hex2]

/-- Claim C6: `deleteMany(keys)` is true exactly when the summed `changes`
equals the number of requested keys; every row whose key is in the list is
removed on both code paths; and when some requested key has no row the
call returns false (on a table satisfying the primary-key invariant). -/
theorem deleteMany_true_iff_all_removed (tbl : Table) (keys : List String)
    (h : tableKeysNodup tbl) :
    ((deleteManyOp tbl keys).2 = true ↔ (deleteCachesOp tbl keys).2 = keys.length)
    ∧ (deleteManyOp tbl keys).1 = tbl.filter (fun r => !keys.contains r.cacheKey)
    ∧ (∀ k ∈ keys, (∀ r ∈ tbl, r.cacheKey ≠ k) →
        (deleteManyOp tbl keys).2 = false) := by
  refine ⟨?_, ?_, ?_⟩
  · unfold deleteManyOp
    simp
  · show (deleteCachesOp tbl keys).1 = _
    rw [deleteCachesOp_spec]
  · intro k hk hno
    unfold deleteManyOp
    rw [deleteCachesOp_spec]
    exact beq_eq_false_iff_ne.mpr
      (Nat.ne_of_lt (length_filter_contains_lt_of_missing tbl keys k h hk hno))

/-- Claim C6 witness: deleting three present keys returns true. -/
theorem deleteMany_true_iff_all_removed_witness :
    (deleteManyOp
        [⟨"foo", "bar", 0, -1⟩, ⟨"foo1", "bar1", 0, -1⟩, ⟨"foo2", "bar2", 0, -1⟩]
        ["foo", "foo1", "foo2"]).2 = true :=
  ((deleteMany_true_iff_all_removed
      [⟨"foo", "bar", 0, -1⟩, ⟨"foo1", "bar1", 0, -1⟩, ⟨"foo2", "bar2", 0, -1⟩]
      ["foo", "foo1", "foo2"] (by unfold tableKeysNodup; decide)).1).mpr (by decide)

/-- Claim C10: a duplicated key makes `deleteMany` return false even when
every listed key has a row: on the 3+ path the set-membership delete
removes each matching row once, so the count stays below the list length;
on the two-element path `[k, k]` the second per-key delete removes
nothing. -/
theorem deleteMany_duplicate_keys_false (tbl : Table) (keys : List String)
    (h : tableKeysNodup tbl) :
    (3 ≤ keys.length → ¬keys.Nodup → (∀ k ∈ keys, ∃ r ∈ tbl, r.cacheKey = k) →
        (deleteManyOp tbl keys).2 = false)
    ∧ (∀ k : String, (∃ r ∈ tbl, r.cacheKey = k) →
        (deleteManyOp tbl [k, k]).2 = false) := by
  constructor
  · intro _ hdup _
    unfold deleteManyOp
    rw [deleteCachesOp_spec]
    have h1 := length_filter_contains_le tbl keys h
    have h2 := toFinset_card_lt_of_dup keys hdup
    exact beq_eq_false_iff_ne.mpr (by omega)
  · intro k hex
    unfold deleteManyOp
    rw [deleteCachesOp_spec]
    have hpred : tbl.filter (fun r => [k, k].contains r.cacheKey)
        = tbl.filter (fun x => x.cacheKey == k) :=
      List.filter_congr (fun x _ => by
        simp only [List.contains_cons, List.contains_nil, Bool.or_false, Bool.or_self])
    show ((tbl.filter (fun r => [k, k].contains r.cacheKey)).length
        == ([k, k] : List String).length) = false
    rw [hpred, length_filter_key_eq_one tbl k h hex]
    rfl

/-- Claim C10 witness: `deleteMany(["a", "b", "a"])` returns false on a
table holding rows for both `a` and `b`. -/
theorem deleteMany_duplicate_keys_false_witness :
    (deleteManyOp [⟨"a", "1", 0, -1⟩, ⟨"b", "2", 0, -1⟩] ["a", "b", "a"]).2
      = false :=
  (deleteMany_duplicate_keys_false [⟨"a", "1", 0, -1⟩, ⟨"b", "2", 0, -1⟩]
    ["a", "b", "a"] (by unfold tableKeysNodup; decide)).1
    (by decide) (by decide) (by decide)

/-- The key pattern of `iterator`'s finder query:
`` `${namespace ? `${namespace}:` : ""}%` `` — a prefix match.  SQLite
`LIKE` is modelled as (case-sensitive) prefix matching; namespaces of
interest contain no `LIKE` wildcards.  `none` covers an absent or empty
namespace, both falsy in the source. -/
def nsMatches (ns : Option String) (k : String) : Bool :=
  match ns with
  | none => true
  | some s => (s ++ ":").isPrefixOf k

/-- The row predicate of `finderStatement`:
`cacheKey LIKE ? AND (expiredAt = -1 OR expiredAt > ?)` with the second
parameter bound to the iteration's start time. -/
def finderPred (ns : Option String) (time : Int) (r : CacheObject) : Bool :=
  nsMatches ns r.cacheKey && (r.expiredAt == -1 || decide (time < r.expiredAt))

/-- All rows matching one iteration's finder predicate, in rowid order. -/
def matchedRows (tbl : Table) (ns : Option String) (time : Int) : Table :=
  tbl.filter (finderPred ns time)

/-- `findCaches(namespace, limit, offset, expiredAt)`: the finder query
with `LIMIT ? OFFSET ?` — skip `offset` matching rows, return at most
`limit`. -/
def findCaches (tbl : Table) (ns : Option String) (limit offset : Nat)
    (time : Int) : Table :=
  ((matchedRows tbl ns time).drop offset).take limit

/-- `Number.parseInt(this.opts.iterationLimit, 10) || 10`: an absent or
unparsable `iterationLimit` gives `NaN`, and both `NaN || 10` and
`0 || 10` give `10`.  `none` stands for an absent/unparsable option. -/
def resolveIterationLimit (cfg : Option Nat) : Nat :=
  match cfg with
  | none => 10
  | some n => if n = 0 then 10 else n

/-- The recursive page generator `iterate(offset)` inside `iterator`:
fetch one page; if empty, stop; otherwise yield each row's
`(cacheKey, cacheData)` (bumping `offset` once per row, so the recursive
call receives `offset + entries.length`). -/
def iterateAux (tbl : Table) (ns : Option String) (limit : Nat) (time : Int)
    (offset : Nat) : List (String × String) :=
  if (findCaches tbl ns limit offset time).isEmpty then
    []
  else
    (findCaches tbl ns limit offset time).map (fun e => (e.cacheKey, e.cacheData))
      ++ iterateAux tbl ns limit time
          (offset + (findCaches tbl ns limit offset time).length)
termination_by (matchedRows tbl ns time).length - offset
decreasing_by
  rename_i h
  rw [List.isEmpty_iff] at h
  have h1 : (matchedRows tbl ns time).drop offset ≠ [] := by
    intro hc
    apply h
    unfold findCaches
    rw [hc]
    exact List.take_nil
  have h2 : offset < (matchedRows tbl ns time).length := by
    by_contra hc
    exact h1 (List.drop_eq_nil_of_le (by omega))
  have h3 : 0 < (findCaches tbl ns limit offset time).length :=
    List.length_pos.mpr h
  omega

/-- `iterator(namespace?)`: resolve the page size, capture `time = now()`
once, and drain the recursive generator from offset 0. -/
def iteratorRun (tbl : Table) (ns : Option String) (cfg : Option Nat)
    (time : Int) : List (String × String) :=
  iterateAux tbl ns (resolveIterationLimit cfg) time 0

lemma resolveIterationLimit_pos (cfg : Option Nat) :
    0 < resolveIterationLimit cfg := by
  cases cfg with
  | none => simp [resolveIterationLimit]
  | some n =>
    by_cases h : n = 0
    · simp [resolveIterationLimit, h]
    · simp [resolveIterationLimit, h]
      omega

lemma take_append_drop_length (xs : Table) (n : Nat) :
    xs.take n ++ xs.drop (xs.take n).length = xs := by
  have h : xs.drop (xs.take n).length = xs.drop n := by
    rw [List.length_take]
    rcases Nat.le_total n xs.length with h | h
    · rw [Nat.min_eq_left h]
    · rw [Nat.min_eq_right h]
      rw [List.drop_eq_nil_of_le (Nat.le_refl _), List.drop_eq_nil_of_le h]
  rw [h, List.take_append_drop]

lemma iterateAux_eq (tbl : Table) (ns : Option String) (limit : Nat)
    (time : Int) (hl : 0 < limit) :
    ∀ offset, iterateAux tbl ns limit time offset
      = ((matchedRows tbl ns time).drop offset).map
          (fun e => (e.cacheKey, e.cacheData)) := by
  have main : ∀ fuel offset, (matchedRows tbl ns time).length - offset ≤ fuel →
      iterateAux tbl ns limit time offset
        = ((matchedRows tbl ns time).drop offset).map
            (fun e => (e.cacheKey, e.cacheData)) := by
    intro fuel
    induction fuel with
    | zero =>
      intro offset h
      have hdrop : (matchedRows tbl ns time).drop offset = [] :=
        List.drop_eq_nil_of_le (by omega)
      have hfc : findCaches tbl ns limit offset time = [] := by
        unfold findCaches
        rw [hdrop]
        exact List.take_nil
      rw [iterateAux]
      simp [hfc, hdrop]
    | succ n ih =>
      intro offset h
      rw [iterateAux]
      by_cases hemp : (findCaches tbl ns limit offset time).isEmpty
      · have hd : (matchedRows tbl ns time).drop offset = [] := by
          rw [List.isEmpty_iff] at hemp
          cases hd2 : (matchedRows tbl ns time).drop offset with
          | nil => rfl
          | cons a t =>
            exfalso
            unfold findCaches at hemp
            rw [hd2] at hemp
            cases limit with
            | zero => omega
            | succ m => simp at hemp
        simp [hemp, hd]
      · rw [if_neg hemp]
        have hne : findCaches tbl ns limit offset time ≠ [] := by
          rw [List.isEmpty_iff] at hemp
          exact hemp
        have hlen : 0 < (findCaches tbl ns limit offset time).length :=
          List.length_pos.mpr hne
        have hoff : offset < (matchedRows tbl ns time).length := by
          by_contra hc
          apply hne
          unfold findCaches
          rw [List.drop_eq_nil_of_le (by omega)]
          exact List.take_nil
        rw [ih (offset + (findCaches tbl ns limit offset time).length) (by omega)]
        rw [← List.map_append]
        refine congrArg _ ?_
        rw [← List.drop_drop]
        exact take_append_drop_length ((matchedRows tbl ns time).drop offset) limit
  intro offset
  exact main (matchedRows tbl ns time).length offset (by omega)

/-- Claim C7: an iteration captures its expiration cutoff once and filters
every page against it; pages use the fixed resolved page size (10 when the
option is absent); the offset handed to each page query equals the number
of rows yielded so far (structurally, `offset + entries.length`); and the
whole yielded sequence is exactly the matching rows' `(cacheKey,
cacheData)` pairs, in order, terminating at the first empty page. -/
theorem iterator_snapshot_pagination (tbl : Table) (ns : Option String)
    (cfg : Option Nat) (time : Int) :
    iteratorRun tbl ns cfg time
      = (matchedRows tbl ns time).map (fun e => (e.cacheKey, e.cacheData))
    ∧ resolveIterationLimit none = 10 := by
  refine ⟨?_, rfl⟩
  unfold iteratorRun
  rw [iterateAux_eq tbl ns (resolveIterationLimit cfg) time
    (resolveIterationLimit_pos cfg) 0]
  rw [List.drop_zero]

/-- Claim C9: the expiration boundary differs between the read paths: a
row with `expiredAt = 100` read at time 100 is live for `get` (expiry
needs `expiredAt < now`) yet omitted by an iteration started at time 100
(the finder keeps only `expiredAt > time`). -/
theorem get_iterator_boundary_inconsistency :
    getOp [⟨"k", "v", 0, 100⟩] 100 "k" = some "v"
    ∧ iteratorRun [⟨"k", "v", 0, 100⟩] none none 100 = [] := by
  constructor
  · rfl
  · unfold iteratorRun
    rw [iterateAux_eq [⟨"k", "v", 0, 100⟩] none (resolveIterationLimit none) 100
      (resolveIterationLimit_pos none) 0]
    rfl

/-- A store's prepared statements over a fallible engine: every statement
call either returns its result or raises an engine error (`Except`).  The
abstract fields let one theorem quantify over arbitrary engine behavior. -/
structure EngineStmts where
  selectSingleE : String → Except String (Option CacheObject)
  selectAllE : List String → Except String (List CacheObject)
  updateRunE : String → Option SQLiteValue → Int → Int → Except String Unit
  purgeRunE : Int → Except String Nat

/-- The per-key arm of `fetchCaches` over the fallible engine: sequential
`selectSingleStatement.get` calls; the first engine error aborts the whole
operation; the Bool is the `purgeExpired` flag. -/
def fetchSinglesE (s : EngineStmts) (ts : Int) :
    List String → Except String (List CacheObject × Bool)
  | [] => .ok ([], false)
  | k :: ks =>
    match s.selectSingleE k with
    | .error e => .error e
    | .ok d =>
      match fetchSinglesE s ts ks with
      | .error e => .error e
      | .ok (rows, flag) =>
        match d with
        | none => .ok (rows, flag)
        | some r =>
          if isExpired r ts then .ok (rows, true)
          else .ok (r :: rows, flag)

/-- `fetchCaches` over the fallible engine. -/
def fetchCachesE (s : EngineStmts) (ts : Int) (args : List String) :
    Except String (List CacheObject × Bool) :=
  if 3 ≤ args.length then
    match s.selectAllE args with
    | .error e => .error e
    | .ok rows =>
      .ok (rows.filterMap (fun d => if isExpired d ts then none else some d),
           rows.any (fun d => isExpired d ts))
  else
    fetchSinglesE s ts args

/-- `get` over the fallible engine: the call's own outcome paired with the
deferred purge sweep (`process.nextTick(() => purgeStatement.run(ts))`)
that is scheduled when an expired row was seen.  The sweep runs after the
call has returned, so its outcome is carried in the second component and
never enters the first. -/
def getE (s : EngineStmts) (ts : Int) (k : String) :
    Except String (Option String) × Option (Except String Nat) :=
  match fetchCachesE s ts [k] with
  | .error e => (.error e, none)
  | .ok (rows, flag) =>
    (.ok (match rows with | [] => none | r :: _ => some r.cacheData),
     if flag then some (s.purgeRunE ts) else none)

/-- `getMany` over the fallible engine, same shape as `getE`. -/
def getManyE (s : EngineStmts) (ts : Int) (keys : List String) :
    Except String (List (Option String)) × Option (Except String Nat) :=
  match fetchCachesE s ts keys with
  | .error e => (.error e, none)
  | .ok (rows, flag) =>
    (.ok (keys.map (fun k =>
        (rows.find? (fun r => r.cacheKey == k)).map (fun r => r.cacheData))),
     if flag then some (s.purgeRunE ts) else none)

/-- `set` over the fallible engine: the source wraps `updateCaches` in
`try/catch` and calls `reject(e)` with the caught error object itself, so
an engine error propagates unmodified; on success it resolves with the
value. -/
def setE (s : EngineStmts) (k : String) (v : Option SQLiteValue)
    (createdAt expiredAt : Int) : Except String (Option SQLiteValue) :=
  match s.updateRunE k v createdAt expiredAt with
  | .error e => .error e
  | .ok _ => .ok v

lemma fetchSinglesE_congr (s s2 : EngineStmts)
    (hsel : ∀ q, s2.selectSingleE q = s.selectSingleE q) (ts : Int) :
    ∀ args, fetchSinglesE s2 ts args = fetchSinglesE s ts args := by
  intro args
  induction args with
  | nil => rfl
  | cons k ks ih =>
    unfold fetchSinglesE
    rw [hsel k, ih]

lemma fetchCachesE_congr (s s2 : EngineStmts)
    (hsel : ∀ q, s2.selectSingleE q = s.selectSingleE q)
    (hall : ∀ qs, s2.selectAllE qs = s.selectAllE qs) (ts : Int)
    (args : List String) :
    fetchCachesE s2 ts args = fetchCachesE s ts args := by
  unfold fetchCachesE
  by_cases h : 3 ≤ args.length
  · rw [if_pos h, if_pos h, hall args]
  · rw [if_neg h, if_neg h]
    exact fetchSinglesE_congr s s2 hsel ts args

/-- Claim C8: an engine error raised during a public operation propagates
unmodified to that operation's caller (shown for `get`, the
set-membership path of `getMany`, and `set`), while the deferred purge
sweep's outcome never surfaces in the result of the `get`/`getMany` call
that scheduled it: two engines that agree on the select statements — but
whose purge statements may differ arbitrarily, e.g. one always failing —
give identical call results. -/
theorem engine_error_propagation (s s2 : EngineStmts) (ts : Int) (k : String)
    (keys : List String) (e : String)
    (hsel : ∀ q, s2.selectSingleE q = s.selectSingleE q)
    (hall : ∀ qs, s2.selectAllE qs = s.selectAllE qs) :
    (s.selectSingleE k = .error e → (getE s ts k).1 = .error e)
    ∧ (3 ≤ keys.length → s.selectAllE keys = .error e →
        (getManyE s ts keys).1 = .error e)
    ∧ (∀ v cAt eAt, s.updateRunE k v cAt eAt = .error e →
        setE s k v cAt eAt = .error e)
    ∧ (getE s2 ts k).1 = (getE s ts k).1
    ∧ (getManyE s2 ts keys).1 = (getManyE s ts keys).1 := by
  refine ⟨?_, ?_, ?_, ?_, ?_⟩
  · intro h
    unfold getE fetchCachesE
    rw [if_neg (by simp)]
    unfold fetchSinglesE
    rw [h]
  · intro hlen h
    unfold getManyE fetchCachesE
    rw [if_pos hlen, h]
  · intro v cAt eAt h
    unfold setE
    rw [h]
  · unfold getE
    rw [fetchCachesE_congr s s2 hsel hall ts [k]]
    cases hfc : fetchCachesE s ts [k] with
    | error e2 => rfl
    | ok pr => rfl
  · unfold getManyE
    rw [fetchCachesE_congr s s2 hsel hall ts keys]
    cases hfc : fetchCachesE s ts keys with
    | error e2 => rfl
    | ok pr => rfl

/-- A benign engine: selects find nothing, updates succeed, purges
succeed. -/
def stmtsNoRows : EngineStmts :=
  { selectSingleE := fun _ => .ok none
    selectAllE := fun _ => .ok []
    updateRunE := fun _ _ _ _ => .ok ()
    purgeRunE := fun _ => .ok 0 }

/-- The benign engine with a purge statement that always fails. -/
def stmtsPurgeFails : EngineStmts :=
  { stmtsNoRows with purgeRunE := fun _ => .error "database is locked" }

/-- An engine whose selects always fail. -/
def stmtsSelectFails : EngineStmts :=
  { stmtsNoRows with
    selectSingleE := fun _ => .error "database is locked"
    selectAllE := fun _ => .error "database is locked" }

/-- An engine whose upsert always fails. -/
def stmtsUpdateFails : EngineStmts :=
  { stmtsNoRows with updateRunE := fun _ _ _ _ => .error "disk I/O error" }

/-- Claim C8 witness: a failing select surfaces verbatim from `get`, a
failing upsert surfaces verbatim from `set`, and a failing purge statement
leaves the `get` result untouched. -/
theorem engine_error_propagation_witness :
    (getE stmtsSelectFails 0 "k").1 = .error "database is locked"
    ∧ setE stmtsUpdateFails "k" none 0 (-1) = .error "disk I/O error"
    ∧ (getE stmtsPurgeFails 0 "k").1 = (getE stmtsNoRows 0 "k").1 := by
  refine ⟨?_, ?_, ?_⟩
  · exact (engine_error_propagation stmtsSelectFails stmtsSelectFails 0 "k" []
      "database is locked" (fun _ => rfl) (fun _ => rfl)).1 rfl
  · exact (engine_error_propagation stmtsUpdateFails stmtsUpdateFails 0 "k" []
      "disk I/O error" (fun _ => rfl) (fun _ => rfl)).2.2.1 none 0 (-1) rfl
  · exact (engine_error_propagation stmtsNoRows stmtsPurgeFails 0 "k" []
      "x" (fun _ => rfl) (fun _ => rfl)).2.2.2.1

end KeyvSqlite

